import Mathlib

set_option maxRecDepth 100000

/-!
# Verification of the CRC-32C engine in src/crc32c.cpp

A shallow embedding of the checksum core of the sse4_crc32 repository:

* the lookup-table generator `initCrcTable` (modelled as the pure table
  `crc32cTable : Nat → Nat → Nat`, row then byte index);
* the software engine `swCrc32c` (table-driven slicing-by-8), including the
  pointer-alignment leading loop, the 8-byte bulk loop and the trailing loop;
* the dispatch performed by `calculateCrc` over a buffer argument.

Machine integers are modelled as `Nat` with explicit masks: all the C
arithmetic in these functions is `uint32_t`/`uint64_t` XOR, shift and mask,
which never overflows, so the only places a reduction is needed are the two
`(uint32_t)` casts in `swCrc32c` (modelled with `% 2 ^ 32`).

A buffer is a `List Nat` of byte values (< 256).  The C code is sensitive to
two aspects of the machine that the embedding makes explicit:

* the numeric value of the buffer pointer (`(uintptr_t) next & 7` in the
  leading loop) is passed as the `addr : Nat` argument;
* the native 8-byte load `*(uint64_t *) next` in the bulk loop is passed as
  the `word : List Nat → Nat` argument: on a little-endian host it is `le64`,
  on a big-endian host it is `be64`.
-/

namespace Crc32c

/-- The CRC-32C polynomial in reversed bit order (`CRC32C_POLYNOMIAL`,
crc32c.cpp line 27). -/
def CRC32C_POLYNOMIAL : Nat := 0x82f63b78

/-- One conditional-XOR reduction step of `initCrcTable`:
`crc = crc & 1 ? (crc >> 1) ^ CRC32C_POLYNOMIAL : crc >> 1`
(crc32c.cpp lines 90-97; `crc` is a `uint32_t`). -/
def stepBit (crc : Nat) : Nat :=
  if crc &&& 1 = 1 then (crc >>> 1) ^^^ CRC32C_POLYNOMIAL else crc >>> 1

/-- Row 0 of the lookup table: the eight unrolled `stepBit` lines of
`initCrcTable` applied to the byte value `i` (crc32c.cpp lines 88-99). -/
def crc32cTable0 (i : Nat) : Nat :=
  stepBit (stepBit (stepBit (stepBit (stepBit (stepBit (stepBit (stepBit i)))))))

/-- The populated lookup table: `crc32cTable j i` is `crc32cTable[j][i]` after
`initCrcTable` has run (crc32c.cpp lines 85-108).  Row `j+1` entry `i` is
obtained from row `j` entry `i` by
`crc = crc32cTable[0][crc & 0xff] ^ (crc >> 8)` (line 104). -/
def crc32cTable : Nat → Nat → Nat
  | 0, i => crc32cTable0 i
  | j + 1, i => crc32cTable0 (crc32cTable j i &&& 0xff) ^^^ (crc32cTable j i >>> 8)

/-- One iteration of the byte-at-a-time loops of `swCrc32c`:
`crc = crc32cTable[0][(crc ^ *next++) & 0xff] ^ (crc >> 8)`
(crc32c.cpp lines 132 and 149), with the buffer byte read as an unsigned
value `b`. -/
def swStepByte (crc b : Nat) : Nat :=
  crc32cTable 0 ((crc ^^^ b) &&& 0xff) ^^^ (crc >>> 8)

/-- Running one of the byte-at-a-time loops of `swCrc32c` over a whole list
of bytes. -/
def swBytes (crc : Nat) (l : List Nat) : Nat := l.foldl swStepByte crc

/-- The leading-alignment loop of `swCrc32c`
(`while (len && ((uintptr_t) next & 7) != 0)`, crc32c.cpp lines 131-134).
`a` is the numeric value of the pointer `next`; the loop consumes one byte and
increments the pointer per iteration until the pointer is 8-byte aligned or
the buffer is exhausted.  Returns the accumulator and the unconsumed bytes. -/
def swLead : Nat → Nat → List Nat → Nat × List Nat
  | _, crc, [] => (crc, [])
  | a, crc, b :: rest =>
    if a &&& 7 = 0 then (crc, b :: rest)
    else swLead (a + 1) (swStepByte crc b) rest

/-- The body of the 8-byte bulk loop of `swCrc32c` (crc32c.cpp lines 138-142):
`crc ^= *(uint64_t *) next` followed by the eight-table fold.  `w` is the
64-bit value produced by the native load. -/
def swBulkStep (crc w : Nat) : Nat :=
  let c := crc ^^^ w
  crc32cTable 7 ((c >>> 0) &&& 0xff) ^^^ crc32cTable 6 ((c >>> 8) &&& 0xff)
    ^^^ crc32cTable 5 ((c >>> 16) &&& 0xff) ^^^ crc32cTable 4 ((c >>> 24) &&& 0xff)
    ^^^ crc32cTable 3 ((c >>> 32) &&& 0xff) ^^^ crc32cTable 2 ((c >>> 40) &&& 0xff)
    ^^^ crc32cTable 1 ((c >>> 48) &&& 0xff) ^^^ crc32cTable 0 (c >>> 56)

/-- The 8-byte bulk loop of `swCrc32c` (`while (len >= 8)`, crc32c.cpp lines
137-145).  `word` gives the semantics of the native 64-bit load on the host.
Returns the accumulator and the (< 8) unconsumed trailing bytes. -/
def swBulk (word : List Nat → Nat) : Nat → List Nat → Nat × List Nat
  | crc, b0 :: b1 :: b2 :: b3 :: b4 :: b5 :: b6 :: b7 :: rest =>
    swBulk word (swBulkStep crc (word [b0, b1, b2, b3, b4, b5, b6, b7])) rest
  | crc, l => (crc, l)

/-- The value of the 8-byte load `*(uint64_t *) next` on a little-endian
host: the first byte in memory is the least significant. -/
def le64 : List Nat → Nat
  | [] => 0
  | b :: rest => b ^^^ (le64 rest <<< 8)

/-- The value of the 8-byte load `*(uint64_t *) next` on a big-endian host:
the first byte in memory is the most significant. -/
def be64 : List Nat → Nat
  | [] => 0
  | b :: rest => (b <<< (8 * rest.length)) ^^^ be64 rest

/-- `swCrc32c` (crc32c.cpp lines 119-155).  `word` is the semantics of the
native 64-bit load (`le64` on little-endian hosts, `be64` on big-endian
hosts), `addr` the numeric value of the buffer pointer `buf`, `initialCrc`
the `uint32_t` seed, and `buf` the `len` bytes of the buffer.  The
accumulator `crc` is a `uint64_t`; the two `(uint32_t)` casts at the return
statements are the `% 2 ^ 32` reductions. -/
def swCrc32c (word : List Nat → Nat) (addr initialCrc : Nat) (buf : List Nat) : Nat :=
  match buf with
  | [] => initialCrc % 2 ^ 32
  | _ =>
    let crc0 := initialCrc ^^^ 0xFFFFFFFF
    let p1 := swLead addr crc0 buf
    let p2 := swBulk word p1.1 p1.2
    (swBytes p2.1 p2.2 ^^^ 0xFFFFFFFF) % 2 ^ 32

/-- The value held by the full 64-bit accumulator of `swCrc32c` at the return
statement, before the `(uint32_t)` cast is applied. -/
def swCrc32cAcc (word : List Nat → Nat) (addr initialCrc : Nat) (buf : List Nat) : Nat :=
  match buf with
  | [] => initialCrc
  | _ =>
    let crc0 := initialCrc ^^^ 0xFFFFFFFF
    let p1 := swLead addr crc0 buf
    let p2 := swBulk word p1.1 p1.2
    swBytes p2.1 p2.2 ^^^ 0xFFFFFFFF

/-- The value the C expression `*next` contributes to
`(crc ^ *next++) & 0xff` when `char` is signed and the byte `b` has its high
bit set: the byte is sign-extended through `int` to `uint64_t`, giving
`2 ^ 64 - 256 + b` for `b ≥ 128` and `b` itself otherwise. -/
def signExt64 (b : Nat) : Nat := if b < 128 then b else 2 ^ 64 - 256 + b

/-- `swStepByte` as executed when the buffer is read through a signed `char`
pointer: the byte is sign-extended before the XOR (crc32c.cpp lines 132 and
149).  The XOR only feeds the masked table index; the accumulator update is
otherwise identical. -/
def swStepByteSigned (crc b : Nat) : Nat :=
  crc32cTable 0 ((crc ^^^ signExt64 b) &&& 0xff) ^^^ (crc >>> 8)

/-- The leading-alignment loop with sign-extended byte reads. -/
def swLeadSigned : Nat → Nat → List Nat → Nat × List Nat
  | _, crc, [] => (crc, [])
  | a, crc, b :: rest =>
    if a &&& 7 = 0 then (crc, b :: rest)
    else swLeadSigned (a + 1) (swStepByteSigned crc b) rest

/-- A byte-at-a-time loop with sign-extended byte reads. -/
def swBytesSigned (crc : Nat) (l : List Nat) : Nat := l.foldl swStepByteSigned crc

/-- `swCrc32c` as executed when `char` is signed: the two byte-at-a-time
loops sign-extend each byte before XORing it into the table-index
expression.  The bulk loop is unaffected (it loads the bytes directly as a
`uint64_t`). -/
def swCrc32cSigned (word : List Nat → Nat) (addr initialCrc : Nat) (buf : List Nat) : Nat :=
  match buf with
  | [] => initialCrc % 2 ^ 32
  | _ =>
    let crc0 := initialCrc ^^^ 0xFFFFFFFF
    let p1 := swLeadSigned addr crc0 buf
    let p2 := swBulk word p1.1 p1.2
    (swBytesSigned p2.1 p2.2 ^^^ 0xFFFFFFFF) % 2 ^ 32

/-- Modelled from the spec: the hardware engine `hwCrc32c` lives in
`crc32c_sse42.cpp`, which is not part of this source snapshot (only its
caller `calculateCrc` is).  Spec §4.4 requires it to be bit-identical to the
software engine, whose checksum §4.1/§4.2 describe as the bit-reversed
bit-at-a-time reduction with the 0xFFFFFFFF pre/post complement.  This is
one byte of that reference computation: XOR the byte into the accumulator,
then eight conditional-XOR steps with the reversed polynomial. -/
def hwStepByte (crc b : Nat) : Nat :=
  stepBit (stepBit (stepBit (stepBit (stepBit (stepBit (stepBit (stepBit (crc ^^^ b))))))))

/-- Modelled from the spec: the hardware engine contract of §4.4 — same
signature and output domain as the software engine, the standard CRC-32C
byte-at-a-time reduction with the complement convention, and the length-0
identity of §4.2 step 1. -/
def hwCrc32c (initialCrc : Nat) (buf : List Nat) : Nat :=
  match buf with
  | [] => initialCrc % 2 ^ 32
  | _ => (buf.foldl hwStepByte (initialCrc ^^^ 0xFFFFFFFF) ^^^ 0xFFFFFFFF) % 2 ^ 32

/-- The dispatch performed by `calculateCrc` for a buffer argument
(crc32c.cpp lines 200-206): `if (useHardwareCrc) crc = hwCrc32c(...); else
crc = swCrc32c(...);`.  The two engines are passed as parameters so that the
routing itself — which engine the dispatcher invokes — is the modelled
behaviour; the code consults nothing but the flag. -/
def calculateCrc (hw sw : Nat → List Nat → Nat) (useHardwareCrc : Bool)
    (initCrc : Nat) (buf : List Nat) : Nat :=
  if useHardwareCrc then hw initCrc buf else sw initCrc buf

/-- The row-advance map: feed one zero byte into the table-driven
accumulator.  `crc32cTable (j+1) i = crcShift8 (crc32cTable j i)` holds by
definition; this map is the algebraic backbone of the slicing-by-8 proof. -/
def crcShift8 (c : Nat) : Nat := crc32cTable0 (c &&& 0xff) ^^^ (c >>> 8)

/-- The first `n` table lookups of the bulk fold, read off the low `n` bytes
of `x`; `combineAux 8 x` is the eight-table XOR of `swBulkStep` (with every
index masked). -/
def combineAux : Nat → Nat → Nat
  | 0, _ => 0
  | n + 1, x => crc32cTable n (x &&& 0xff) ^^^ combineAux n (x >>> 8)

example : crc32cTable0 1 = 0xF26B8303 := by decide

/-! ## Bit-level helper lemmas -/

theorem xor_left_comm (a b c : Nat) : a ^^^ (b ^^^ c) = b ^^^ (a ^^^ c) := by
  rw [← Nat.xor_assoc, Nat.xor_comm a b, Nat.xor_assoc]

theorem xor_xor_cancel (a b : Nat) : a ^^^ (a ^^^ b) = b := by
  rw [← Nat.xor_assoc, Nat.xor_self, Nat.zero_xor]

theorem xor_shiftRight (x y n : Nat) : (x ^^^ y) >>> n = (x >>> n) ^^^ (y >>> n) := by
  apply Nat.eq_of_testBit_eq
  intro i
  simp

theorem and255_eq_mod (x : Nat) : x &&& 0xff = x % 256 := by
  have h := Nat.and_pow_two_sub_one_eq_mod x 8
  norm_num at h
  exact h

theorem and255_lt (x : Nat) : x &&& 0xff < 256 := by
  rw [and255_eq_mod]
  exact Nat.mod_lt _ (by norm_num)

theorem byte_and255 {b : Nat} (h : b < 256) : b &&& 0xff = b := by
  rw [and255_eq_mod]
  exact Nat.mod_eq_of_lt h

theorem byte_shiftRight8 {b : Nat} (h : b < 256) : b >>> 8 = 0 := by
  rw [Nat.shiftRight_eq_div_pow]
  exact Nat.div_eq_of_lt (by norm_num at h ⊢; omega)

theorem shiftRight_lt {x : Nat} (h : x < 2 ^ 32) (n : Nat) : x >>> n < 2 ^ 32 := by
  rw [Nat.shiftRight_eq_div_pow]
  exact Nat.lt_of_le_of_lt (Nat.div_le_self _ _) h

/-! ## Linearity of the table maps over XOR -/

theorem stepBit_linear (x y : Nat) : stepBit (x ^^^ y) = stepBit x ^^^ stepBit y := by
  unfold stepBit
  have hxy : (x ^^^ y) &&& 1 = (x &&& 1) ^^^ (y &&& 1) := Nat.and_xor_distrib_right
  rw [hxy, Nat.and_one_is_mod, Nat.and_one_is_mod, xor_shiftRight]
  rcases Nat.mod_two_eq_zero_or_one x with h1 | h1 <;>
    rcases Nat.mod_two_eq_zero_or_one y with h2 | h2 <;>
      simp [h1, h2, Nat.xor_assoc, Nat.xor_comm, xor_left_comm, xor_xor_cancel]

theorem stepBit_lt {x : Nat} (h : x < 2 ^ 32) : stepBit x < 2 ^ 32 := by
  unfold stepBit
  have h1 : x >>> 1 < 2 ^ 32 := shiftRight_lt h 1
  split
  · exact Nat.xor_lt_two_pow h1 (by norm_num [CRC32C_POLYNOMIAL])
  · exact h1

theorem crc32cTable0_linear (x y : Nat) :
    crc32cTable0 (x ^^^ y) = crc32cTable0 x ^^^ crc32cTable0 y := by
  simp [crc32cTable0, stepBit_linear]

theorem crc32cTable0_lt {x : Nat} (h : x < 2 ^ 32) : crc32cTable0 x < 2 ^ 32 := by
  simp only [crc32cTable0]
  exact stepBit_lt (stepBit_lt (stepBit_lt (stepBit_lt
    (stepBit_lt (stepBit_lt (stepBit_lt (stepBit_lt h)))))))

theorem crcShift8_linear (x y : Nat) :
    crcShift8 (x ^^^ y) = crcShift8 x ^^^ crcShift8 y := by
  unfold crcShift8
  rw [Nat.and_xor_distrib_right, crc32cTable0_linear, xor_shiftRight]
  simp [Nat.xor_assoc, Nat.xor_comm, xor_left_comm]

theorem stepBit_iterate_linear (n : Nat) :
    ∀ x y, stepBit^[n] (x ^^^ y) = stepBit^[n] x ^^^ stepBit^[n] y := by
  induction n with
  | zero => intro x y; simp
  | succ n ih =>
    intro x y
    simp only [Function.iterate_succ_apply, stepBit_linear]
    exact ih _ _

theorem crcShift8_iterate_linear (n : Nat) :
    ∀ x y, crcShift8^[n] (x ^^^ y) = crcShift8^[n] x ^^^ crcShift8^[n] y := by
  induction n with
  | zero => intro x y; simp
  | succ n ih =>
    intro x y
    simp only [Function.iterate_succ_apply, crcShift8_linear]
    exact ih _ _

/-! ## Zero bytes pass shifted data through untouched -/

theorem stepBit_shiftLeft (m k : Nat) : stepBit (m <<< (k + 1)) = m <<< k := by
  unfold stepBit
  have heven : m <<< (k + 1) &&& 1 = 0 := by
    rw [Nat.and_one_is_mod, Nat.shiftLeft_eq, pow_succ, ← mul_assoc]
    exact Nat.mul_mod_left _ 2
  rw [heven]
  simp only [if_neg (by norm_num : ¬ (0 : Nat) = 1)]
  rw [Nat.shiftLeft_eq, Nat.shiftLeft_eq, Nat.shiftRight_eq_div_pow, pow_succ,
    ← mul_assoc, pow_one]
  exact Nat.mul_div_cancel _ (by norm_num)

theorem stepBit_iterate_shiftLeft : ∀ (k m : Nat), stepBit^[k] (m <<< k) = m := by
  intro k
  induction k with
  | zero => intro m; simp
  | succ k ih =>
    intro m
    rw [Function.iterate_succ_apply, stepBit_shiftLeft]
    exact ih m

theorem crc32cTable0_eq_iterate (i : Nat) : crc32cTable0 i = stepBit^[8] i := rfl

theorem byte_decomp (y : Nat) : (y &&& 0xff) ^^^ ((y >>> 8) <<< 8) = y := by
  apply Nat.eq_of_testBit_eq
  intro i
  rw [show (0xff : Nat) = 2 ^ 8 - 1 by norm_num]
  simp only [Nat.testBit_xor, Nat.testBit_and, Nat.testBit_two_pow_sub_one,
    Nat.testBit_shiftLeft, Nat.testBit_shiftRight]
  by_cases h : i < 8
  · have h8 : ¬ (i ≥ 8) := by omega
    simp [h, h8]
  · have h8 : i ≥ 8 := by omega
    have hi : 8 + (i - 8) = i := by omega
    simp [h, h8, hi]

/-- Eight bit-level reduction steps are exactly one table-lookup step: the
table method agrees with the bit-at-a-time method on every accumulator. -/
theorem stepBit_iterate8_eq_crcShift8 (y : Nat) : stepBit^[8] y = crcShift8 y := by
  conv_lhs => rw [← byte_decomp y]
  rw [stepBit_iterate_linear, ← crc32cTable0_eq_iterate, stepBit_iterate_shiftLeft]
  rfl

theorem crcShift8_shiftLeft8 (m : Nat) : crcShift8 (m <<< 8) = m := by
  rw [← stepBit_iterate8_eq_crcShift8]
  exact stepBit_iterate_shiftLeft 8 m

theorem swStepByte_eq_crcShift8 {b : Nat} (hb : b < 256) (crc : Nat) :
    swStepByte crc b = crcShift8 (crc ^^^ b) := by
  show crc32cTable0 ((crc ^^^ b) &&& 0xff) ^^^ (crc >>> 8)
    = crc32cTable0 ((crc ^^^ b) &&& 0xff) ^^^ ((crc ^^^ b) >>> 8)
  rw [xor_shiftRight, byte_shiftRight8 hb, Nat.xor_zero]

theorem hwStepByte_eq_swStepByte {b : Nat} (hb : b < 256) (crc : Nat) :
    hwStepByte crc b = swStepByte crc b := by
  have h : hwStepByte crc b = stepBit^[8] (crc ^^^ b) := rfl
  rw [h, stepBit_iterate8_eq_crcShift8, ← swStepByte_eq_crcShift8 hb]

/-! ## Elementary facts about the loops -/

theorem swBytes_nil (crc : Nat) : swBytes crc [] = crc := rfl

theorem swBytes_cons (crc b : Nat) (l : List Nat) :
    swBytes crc (b :: l) = swBytes (swStepByte crc b) l := rfl

theorem swBytes_append (crc : Nat) (l1 l2 : List Nat) :
    swBytes crc (l1 ++ l2) = swBytes (swBytes crc l1) l2 := by
  simp [swBytes]

theorem swStepByte_lt {crc : Nat} (h : crc < 2 ^ 32) (b : Nat) :
    swStepByte crc b < 2 ^ 32 := by
  unfold swStepByte
  have h1 : crc32cTable 0 ((crc ^^^ b) &&& 0xff) < 2 ^ 32 :=
    crc32cTable0_lt (Nat.lt_trans (and255_lt _) (by norm_num))
  exact Nat.xor_lt_two_pow h1 (shiftRight_lt h 8)

theorem swBytes_lt : ∀ (l : List Nat) {crc : Nat}, crc < 2 ^ 32 → swBytes crc l < 2 ^ 32 := by
  intro l
  induction l with
  | nil => intro crc h; exact h
  | cons b rest ih =>
    intro crc h
    rw [swBytes_cons]
    exact ih (swStepByte_lt h b)

theorem crc32cTable_lt : ∀ (j : Nat) {i : Nat}, i < 2 ^ 32 → crc32cTable j i < 2 ^ 32 := by
  intro j
  induction j with
  | zero => intro i h; exact crc32cTable0_lt h
  | succ j ih =>
    intro i h
    show crc32cTable0 (crc32cTable j i &&& 0xff) ^^^ (crc32cTable j i >>> 8) < 2 ^ 32
    exact Nat.xor_lt_two_pow
      (crc32cTable0_lt (Nat.lt_trans (and255_lt _) (by norm_num)))
      (shiftRight_lt (ih h) 8)

theorem le64_lt : ∀ {l : List Nat}, (∀ b ∈ l, b < 256) → le64 l < 2 ^ (8 * l.length) := by
  intro l
  induction l with
  | nil => intro _; simp [le64]
  | cons b rest ih =>
    intro hb
    show b ^^^ (le64 rest <<< 8) < 2 ^ (8 * (rest.length + 1))
    have hmul : 8 * (rest.length + 1) = 8 * rest.length + 8 := by ring
    rw [hmul]
    apply Nat.xor_lt_two_pow
    · have hb0 : b < 256 := hb b (List.mem_cons_self b rest)
      calc b < 256 := hb0
        _ = 2 ^ 8 := by norm_num
        _ ≤ 2 ^ (8 * rest.length + 8) := Nat.pow_le_pow_right (by norm_num) (by omega)
    · rw [Nat.shiftLeft_eq, pow_add]
      have hr : le64 rest < 2 ^ (8 * rest.length) :=
        ih (fun x hx => hb x (List.mem_cons_of_mem b hx))
      exact Nat.mul_lt_mul_of_lt_of_le hr (Nat.le_refl _) (by norm_num)

/-! ## Correctness of the slicing-by-8 bulk step -/

theorem crcShift8_iterate_table (n i : Nat) :
    crcShift8^[n] (crc32cTable0 i) = crc32cTable n i := by
  induction n with
  | zero => rfl
  | succ n ih => rw [Function.iterate_succ_apply', ih]; rfl

theorem crcShift8_iterate_eq_combineAux :
    ∀ (n x : Nat), crcShift8^[n] x = combineAux n x ^^^ (x >>> (8 * n)) := by
  intro n
  induction n with
  | zero => intro x; simp [combineAux]
  | succ n ih =>
    intro x
    rw [Function.iterate_succ_apply,
      show crcShift8 x = crc32cTable0 (x &&& 0xff) ^^^ (x >>> 8) from rfl,
      crcShift8_iterate_linear, crcShift8_iterate_table, ih,
      show combineAux (n + 1) x = crc32cTable n (x &&& 0xff) ^^^ combineAux n (x >>> 8)
        from rfl,
      ← Nat.shiftRight_add, Nat.xor_assoc,
      show 8 + 8 * n = 8 * (n + 1) by ring]

theorem shiftRight56_lt {c : Nat} (h : c < 2 ^ 64) : c >>> 56 < 256 := by
  rw [Nat.shiftRight_eq_div_pow]
  rw [Nat.div_lt_iff_lt_mul (by norm_num : (0:Nat) < 2 ^ 56)]
  calc c < 2 ^ 64 := h
    _ ≤ 256 * 2 ^ 56 := by norm_num

theorem swBulkStep_eq (crc w : Nat) (h : crc ^^^ w < 2 ^ 64) :
    swBulkStep crc w = crcShift8^[8] (crc ^^^ w) := by
  have h64 : (crc ^^^ w) >>> (8 * 8) = 0 := by
    rw [Nat.shiftRight_eq_div_pow]
    exact Nat.div_eq_of_lt (by norm_num at h ⊢; omega)
  rw [crcShift8_iterate_eq_combineAux, h64, Nat.xor_zero]
  have h56 : (crc ^^^ w) >>> 56 &&& 0xff = (crc ^^^ w) >>> 56 :=
    byte_and255 (shiftRight56_lt h)
  simp only [swBulkStep, combineAux, ← Nat.shiftRight_add]
  norm_num [h56, Nat.xor_assoc]

/-! ## The byte loops in accumulator form -/

theorem swBytes_eq_iterate :
    ∀ (l : List Nat) (crc : Nat), (∀ b ∈ l, b < 256) →
      swBytes crc l = crcShift8^[l.length] (crc ^^^ le64 l) := by
  intro l
  induction l with
  | nil => intro crc _; simp [swBytes, le64]
  | cons b rest ih =>
    intro crc hb
    have hb0 : b < 256 := hb b (List.mem_cons_self b rest)
    rw [swBytes_cons, ih _ (fun x hx => hb x (List.mem_cons_of_mem b hx)),
      show (b :: rest).length = rest.length + 1 from rfl,
      Function.iterate_succ_apply,
      show le64 (b :: rest) = b ^^^ (le64 rest <<< 8) from rfl,
      ← Nat.xor_assoc, crcShift8_linear, crcShift8_shiftLeft8,
      ← swStepByte_eq_crcShift8 hb0]

theorem swBulkStep_eq_swBytes {crc : Nat} (hc : crc < 2 ^ 32)
    {b0 b1 b2 b3 b4 b5 b6 b7 : Nat}
    (h0 : b0 < 256) (h1 : b1 < 256) (h2 : b2 < 256) (h3 : b3 < 256)
    (h4 : b4 < 256) (h5 : b5 < 256) (h6 : b6 < 256) (h7 : b7 < 256) :
    swBulkStep crc (le64 [b0, b1, b2, b3, b4, b5, b6, b7])
      = swBytes crc [b0, b1, b2, b3, b4, b5, b6, b7] := by
  have hmem : ∀ b ∈ [b0, b1, b2, b3, b4, b5, b6, b7], b < 256 := by
    intro b hb
    simp only [List.mem_cons, List.not_mem_nil, or_false] at hb
    rcases hb with rfl | rfl | rfl | rfl | rfl | rfl | rfl | rfl <;> assumption
  have hw : le64 [b0, b1, b2, b3, b4, b5, b6, b7] < 2 ^ 64 := by
    have := le64_lt hmem
    norm_num at this
    norm_num
    exact this
  have hx : crc ^^^ le64 [b0, b1, b2, b3, b4, b5, b6, b7] < 2 ^ 64 :=
    Nat.xor_lt_two_pow (Nat.lt_trans hc (by norm_num)) hw
  rw [swBulkStep_eq _ _ hx, swBytes_eq_iterate _ _ hmem]
  rfl

/-! ## Soundness of the three loops of swCrc32c -/

theorem swLead_sound :
    ∀ (l : List Nat) (a crc : Nat),
      swBytes (swLead a crc l).1 (swLead a crc l).2 = swBytes crc l
      ∧ (∀ b ∈ (swLead a crc l).2, b ∈ l)
      ∧ (crc < 2 ^ 32 → (swLead a crc l).1 < 2 ^ 32) := by
  intro l
  induction l with
  | nil => intro a crc; exact ⟨rfl, fun b hb => hb, fun h => h⟩
  | cons b rest ih =>
    intro a crc
    have he : swLead a crc (b :: rest)
        = if a &&& 7 = 0 then (crc, b :: rest)
          else swLead (a + 1) (swStepByte crc b) rest := rfl
    rw [he]
    by_cases h : a &&& 7 = 0
    · rw [if_pos h]
      exact ⟨rfl, fun x hx => hx, fun hlt => hlt⟩
    · rw [if_neg h]
      obtain ⟨i1, i2, i3⟩ := ih (a + 1) (swStepByte crc b)
      exact ⟨by rw [i1, swBytes_cons], fun x hx => List.mem_cons_of_mem b (i2 x hx),
        fun hlt => i3 (swStepByte_lt hlt b)⟩

theorem swBulk_sound :
    ∀ (crc : Nat) (l : List Nat), crc < 2 ^ 32 → (∀ b ∈ l, b < 256) →
      swBytes (swBulk le64 crc l).1 (swBulk le64 crc l).2 = swBytes crc l
      ∧ (swBulk le64 crc l).1 < 2 ^ 32
      ∧ (∀ b ∈ (swBulk le64 crc l).2, b ∈ l) := by
  intro crc l
  induction crc, l using swBulk.induct le64 with
  | case1 crc b0 b1 b2 b3 b4 b5 b6 b7 rest ih =>
    intro hc hb
    have h0 : b0 < 256 := hb b0 (by simp)
    have h1 : b1 < 256 := hb b1 (by simp)
    have h2 : b2 < 256 := hb b2 (by simp)
    have h3 : b3 < 256 := hb b3 (by simp)
    have h4 : b4 < 256 := hb b4 (by simp)
    have h5 : b5 < 256 := hb b5 (by simp)
    have h6 : b6 < 256 := hb b6 (by simp)
    have h7 : b7 < 256 := hb b7 (by simp)
    have hrest : ∀ x ∈ rest, x < 256 := fun x hx => hb x (by simp [hx])
    have hstep : swBulkStep crc (le64 [b0, b1, b2, b3, b4, b5, b6, b7])
        = swBytes crc [b0, b1, b2, b3, b4, b5, b6, b7] :=
      swBulkStep_eq_swBytes hc h0 h1 h2 h3 h4 h5 h6 h7
    have hlt : swBulkStep crc (le64 [b0, b1, b2, b3, b4, b5, b6, b7]) < 2 ^ 32 := by
      rw [hstep]; exact swBytes_lt _ hc
    obtain ⟨i1, i2, i3⟩ := ih hlt hrest
    refine ⟨?_, i2, fun x hx => by
      simp only [List.mem_cons]
      exact Or.inr (Or.inr (Or.inr (Or.inr (Or.inr (Or.inr (Or.inr (Or.inr (i3 x hx))))))))⟩
    calc swBytes (swBulk le64 crc (b0 :: b1 :: b2 :: b3 :: b4 :: b5 :: b6 :: b7 :: rest)).1
          (swBulk le64 crc (b0 :: b1 :: b2 :: b3 :: b4 :: b5 :: b6 :: b7 :: rest)).2
        = swBytes (swBulkStep crc (le64 [b0, b1, b2, b3, b4, b5, b6, b7])) rest := i1
      _ = swBytes (swBytes crc [b0, b1, b2, b3, b4, b5, b6, b7]) rest := by rw [hstep]
      _ = swBytes crc ([b0, b1, b2, b3, b4, b5, b6, b7] ++ rest) := (swBytes_append _ _ _).symm
      _ = swBytes crc (b0 :: b1 :: b2 :: b3 :: b4 :: b5 :: b6 :: b7 :: rest) := rfl
  | case2 crc l h =>
    intro hc _
    rcases l with _ | ⟨c0, _ | ⟨c1, _ | ⟨c2, _ | ⟨c3, _ | ⟨c4, _ | ⟨c5, _ | ⟨c6, _ | ⟨c7, rest⟩⟩⟩⟩⟩⟩⟩⟩
    · exact ⟨rfl, hc, fun x hx => hx⟩
    · exact ⟨rfl, hc, fun x hx => hx⟩
    · exact ⟨rfl, hc, fun x hx => hx⟩
    · exact ⟨rfl, hc, fun x hx => hx⟩
    · exact ⟨rfl, hc, fun x hx => hx⟩
    · exact ⟨rfl, hc, fun x hx => hx⟩
    · exact ⟨rfl, hc, fun x hx => hx⟩
    · exact ⟨rfl, hc, fun x hx => hx⟩
    · exact absurd rfl (h c0 c1 c2 c3 c4 c5 c6 c7 rest)

theorem hw_foldl_eq_swBytes :
    ∀ (l : List Nat) (crc : Nat), (∀ b ∈ l, b < 256) →
      l.foldl hwStepByte crc = swBytes crc l := by
  intro l
  induction l with
  | nil => intro crc _; rfl
  | cons b rest ih =>
    intro crc hb
    show rest.foldl hwStepByte (hwStepByte crc b) = _
    rw [hwStepByte_eq_swStepByte (hb b (by simp)) crc, swBytes_cons]
    exact ih _ (fun x hx => hb x (List.mem_cons_of_mem b hx))

/-- The software engine with the little-endian load computes, at every
buffer address, the reference byte-at-a-time checksum. -/
theorem swCrc32c_eq_hwCrc32c (addr initialCrc : Nat) (buf : List Nat)
    (hi : initialCrc < 2 ^ 32) (hb : ∀ b ∈ buf, b < 256) :
    swCrc32c le64 addr initialCrc buf = hwCrc32c initialCrc buf := by
  cases buf with
  | nil => rfl
  | cons b rest =>
    have hcrc0 : initialCrc ^^^ 0xFFFFFFFF < 2 ^ 32 :=
      Nat.xor_lt_two_pow hi (by norm_num)
    obtain ⟨l1, l2, l3⟩ := swLead_sound (b :: rest) addr (initialCrc ^^^ 0xFFFFFFFF)
    obtain ⟨k1, k2, k3⟩ :=
      swBulk_sound (swLead addr (initialCrc ^^^ 0xFFFFFFFF) (b :: rest)).1
        (swLead addr (initialCrc ^^^ 0xFFFFFFFF) (b :: rest)).2
        (l3 hcrc0) (fun x hx => hb x (l2 x hx))
    show (swBytes
          (swBulk le64 (swLead addr (initialCrc ^^^ 0xFFFFFFFF) (b :: rest)).1
            (swLead addr (initialCrc ^^^ 0xFFFFFFFF) (b :: rest)).2).1
          (swBulk le64 (swLead addr (initialCrc ^^^ 0xFFFFFFFF) (b :: rest)).1
            (swLead addr (initialCrc ^^^ 0xFFFFFFFF) (b :: rest)).2).2
        ^^^ 0xFFFFFFFF) % 2 ^ 32
      = (List.foldl hwStepByte (initialCrc ^^^ 0xFFFFFFFF) (b :: rest) ^^^ 0xFFFFFFFF) % 2 ^ 32
    rw [k1, l1, hw_foldl_eq_swBytes _ _ hb]

/-! ## Signed-char reads are harmless -/

theorem signExt64_and255 {b : Nat} : signExt64 b &&& 0xff = b &&& 0xff := by
  unfold signExt64
  split
  · rfl
  · rw [and255_eq_mod, and255_eq_mod]
    norm_num
    omega

theorem swStepByteSigned_eq (crc b : Nat) : swStepByteSigned crc b = swStepByte crc b := by
  unfold swStepByteSigned swStepByte
  rw [Nat.and_xor_distrib_right, Nat.and_xor_distrib_right, signExt64_and255]

theorem swLeadSigned_eq : ∀ (l : List Nat) (a crc : Nat),
    swLeadSigned a crc l = swLead a crc l := by
  intro l
  induction l with
  | nil => intro a crc; rfl
  | cons b rest ih =>
    intro a crc
    show (if a &&& 7 = 0 then (crc, b :: rest)
        else swLeadSigned (a + 1) (swStepByteSigned crc b) rest)
      = (if a &&& 7 = 0 then (crc, b :: rest)
        else swLead (a + 1) (swStepByte crc b) rest)
    rw [swStepByteSigned_eq, ih]

theorem swBytesSigned_eq : ∀ (l : List Nat) (crc : Nat),
    swBytesSigned crc l = swBytes crc l := by
  intro l
  induction l with
  | nil => intro crc; rfl
  | cons b rest ih =>
    intro crc
    show swBytesSigned (swStepByteSigned crc b) rest = swBytes (swStepByte crc b) rest
    rw [swStepByteSigned_eq, ih]

/-! ## Range invariants for the 64-bit accumulator -/

theorem swBulkStep_lt {crc w : Nat} (hc : crc < 2 ^ 32) (hw : w < 2 ^ 64) :
    swBulkStep crc w < 2 ^ 32 := by
  have hx : crc ^^^ w < 2 ^ 64 :=
    Nat.xor_lt_two_pow (Nat.lt_trans hc (by norm_num)) hw
  have ht : ∀ j x, crc32cTable j (x &&& 0xff) < 2 ^ 32 := fun j x =>
    crc32cTable_lt j (Nat.lt_trans (and255_lt x) (by norm_num))
  have hlast : crc32cTable 0 ((crc ^^^ w) >>> 56) < 2 ^ 32 :=
    crc32cTable_lt 0 (Nat.lt_trans (shiftRight56_lt hx) (by norm_num))
  show crc32cTable 7 (((crc ^^^ w) >>> 0) &&& 0xff) ^^^ crc32cTable 6 (((crc ^^^ w) >>> 8) &&& 0xff)
      ^^^ crc32cTable 5 (((crc ^^^ w) >>> 16) &&& 0xff) ^^^ crc32cTable 4 (((crc ^^^ w) >>> 24) &&& 0xff)
      ^^^ crc32cTable 3 (((crc ^^^ w) >>> 32) &&& 0xff) ^^^ crc32cTable 2 (((crc ^^^ w) >>> 40) &&& 0xff)
      ^^^ crc32cTable 1 (((crc ^^^ w) >>> 48) &&& 0xff) ^^^ crc32cTable 0 ((crc ^^^ w) >>> 56)
    < 2 ^ 32
  refine Nat.xor_lt_two_pow (Nat.xor_lt_two_pow (Nat.xor_lt_two_pow (Nat.xor_lt_two_pow
    (Nat.xor_lt_two_pow (Nat.xor_lt_two_pow (Nat.xor_lt_two_pow ?_ ?_) ?_) ?_) ?_) ?_) ?_) ?_
  all_goals first | exact ht _ _ | exact hlast

/-! ## The reference checksum in table form, and its chaining law -/

theorem hwCrc32c_lt (i : Nat) (l : List Nat) : hwCrc32c i l < 2 ^ 32 := by
  cases l with
  | nil => exact Nat.mod_lt _ (by norm_num)
  | cons b rest => exact Nat.mod_lt _ (by norm_num)

theorem hwCrc32c_nonempty (i : Nat) {l : List Nat} (h : l ≠ []) (hb : ∀ b ∈ l, b < 256) :
    hwCrc32c i l = (swBytes (i ^^^ 0xFFFFFFFF) l ^^^ 0xFFFFFFFF) % 2 ^ 32 := by
  cases l with
  | nil => exact absurd rfl h
  | cons b rest =>
    show (List.foldl hwStepByte (i ^^^ 0xFFFFFFFF) (b :: rest) ^^^ 0xFFFFFFFF) % 2 ^ 32 = _
    rw [hw_foldl_eq_swBytes _ _ hb]

theorem hwCrc32c_chain {A B : List Nat} (hA : A ≠ []) (hB : B ≠ [])
    (hAb : ∀ b ∈ A, b < 256) (hBb : ∀ b ∈ B, b < 256) :
    hwCrc32c 0 (A ++ B) = hwCrc32c (hwCrc32c 0 A) B := by
  have hM : (0xFFFFFFFF : Nat) < 2 ^ 32 := by norm_num
  have hAB : A ++ B ≠ [] := fun h => hA (List.append_eq_nil.mp h).1
  have hABb : ∀ b ∈ A ++ B, b < 256 := by
    intro x hx
    rcases List.mem_append.mp hx with h | h
    · exact hAb x h
    · exact hBb x h
  have hseed : hwCrc32c 0 A = swBytes 0xFFFFFFFF A ^^^ 0xFFFFFFFF := by
    rw [hwCrc32c_nonempty 0 hA hAb, Nat.zero_xor]
    exact Nat.mod_eq_of_lt (Nat.xor_lt_two_pow (swBytes_lt A hM) hM)
  rw [hwCrc32c_nonempty 0 hAB hABb, hwCrc32c_nonempty _ hB hBb, hseed,
    Nat.xor_assoc, Nat.xor_self, Nat.xor_zero, Nat.zero_xor, swBytes_append]

theorem swCrc32cAcc_lt_and_eq (addr initialCrc : Nat) (bs : List Nat)
    (hi : initialCrc < 2 ^ 32) (hbs : ∀ x ∈ bs, x < 256) :
    swCrc32cAcc le64 addr initialCrc bs < 2 ^ 32
    ∧ swCrc32c le64 addr initialCrc bs = swCrc32cAcc le64 addr initialCrc bs := by
  cases bs with
  | nil => exact ⟨hi, Nat.mod_eq_of_lt hi⟩
  | cons b rest =>
    have hM : (0xFFFFFFFF : Nat) < 2 ^ 32 := by norm_num
    have hcrc0 : initialCrc ^^^ 0xFFFFFFFF < 2 ^ 32 := Nat.xor_lt_two_pow hi hM
    obtain ⟨l1, l2, l3⟩ := swLead_sound (b :: rest) addr (initialCrc ^^^ 0xFFFFFFFF)
    obtain ⟨k1, k2, k3⟩ :=
      swBulk_sound (swLead addr (initialCrc ^^^ 0xFFFFFFFF) (b :: rest)).1
        (swLead addr (initialCrc ^^^ 0xFFFFFFFF) (b :: rest)).2
        (l3 hcrc0) (fun x hx => hbs x (l2 x hx))
    have hlt : swBytes
        (swBulk le64 (swLead addr (initialCrc ^^^ 0xFFFFFFFF) (b :: rest)).1
          (swLead addr (initialCrc ^^^ 0xFFFFFFFF) (b :: rest)).2).1
        (swBulk le64 (swLead addr (initialCrc ^^^ 0xFFFFFFFF) (b :: rest)).1
          (swLead addr (initialCrc ^^^ 0xFFFFFFFF) (b :: rest)).2).2
        ^^^ 0xFFFFFFFF < 2 ^ 32 :=
      Nat.xor_lt_two_pow (swBytes_lt _ k2) hM
    exact ⟨hlt, Nat.mod_eq_of_lt hlt⟩

/-! ## The claims -/

/-- C1: for the 9-byte ASCII buffer "123456789" (bytes 0x31..0x39) and
initial CRC 0, the software engine — run with the populated lookup table,
at any buffer address — returns exactly 0xE3069283. -/
theorem spec_c1 (addr : Nat) :
    swCrc32c le64 addr 0 [0x31, 0x32, 0x33, 0x34, 0x35, 0x36, 0x37, 0x38, 0x39]
      = 0xE3069283 := by
  rw [swCrc32c_eq_hwCrc32c addr 0 _ (by norm_num) (by decide)]
  decide

/-- C2: for every buffer and every 32-bit initial seed, the software engine
and the hardware engine return the same checksum, so the dispatcher's choice
of path never changes the returned value.  (The hardware engine is not under
src/; it is modelled from the spec as the reference byte-at-a-time CRC-32C,
see hwCrc32c.) -/
theorem spec_c2 (addr initialCrc : Nat) (buf : List Nat)
    (hi : initialCrc < 2 ^ 32) (hb : ∀ b ∈ buf, b < 256) :
    swCrc32c le64 addr initialCrc buf = hwCrc32c initialCrc buf :=
  swCrc32c_eq_hwCrc32c addr initialCrc buf hi hb

theorem spec_c2_witness : swCrc32c le64 2 1 [0, 255] = hwCrc32c 1 [0, 255] :=
  spec_c2 2 1 [0, 255] (by norm_num) (by decide)

/-- C3: with length 0 the software engine returns the initial CRC unchanged
— no 0xFFFFFFFF complement is applied — for any load semantics and any
buffer address; in particular the CRC of an empty buffer with seed 0 is 0
(see the witness). -/
theorem spec_c3 (word : List Nat → Nat) (addr initialCrc : Nat)
    (hi : initialCrc < 2 ^ 32) :
    swCrc32c word addr initialCrc [] = initialCrc :=
  Nat.mod_eq_of_lt hi

theorem spec_c3_witness : swCrc32c le64 5 0 [] = 0 :=
  spec_c3 le64 5 0 (by norm_num)

/-- C4: seeding composability: for non-empty byte buffers A and B, at any
buffer addresses, the CRC of A ++ B with seed 0 equals the CRC of B seeded
with the CRC of A. -/
theorem spec_c4 (a1 a2 a3 : Nat) (A B : List Nat) (hA : A ≠ []) (hB : B ≠ [])
    (hAb : ∀ b ∈ A, b < 256) (hBb : ∀ b ∈ B, b < 256) :
    swCrc32c le64 a1 0 (A ++ B) = swCrc32c le64 a2 (swCrc32c le64 a3 0 A) B := by
  have hABb : ∀ b ∈ A ++ B, b < 256 := by
    intro x hx
    rcases List.mem_append.mp hx with h | h
    · exact hAb x h
    · exact hBb x h
  rw [swCrc32c_eq_hwCrc32c a3 0 A (by norm_num) hAb,
    swCrc32c_eq_hwCrc32c a2 _ B (hwCrc32c_lt 0 A) hBb,
    swCrc32c_eq_hwCrc32c a1 0 (A ++ B) (by norm_num) hABb]
  exact hwCrc32c_chain hA hB hAb hBb

theorem spec_c4_witness :
    swCrc32c le64 0 0 ([1, 2] ++ [3]) = swCrc32c le64 1 (swCrc32c le64 2 0 [1, 2]) [3] :=
  spec_c4 0 1 2 [1, 2] [3] (by decide) (by decide) (by decide) (by decide)

/-- C5: the claim says the 8-byte bulk step is independent of host byte
order, but the code loads the word with a native `*(uint64_t *)` read, so a
big-endian host (load semantics `be64`) computes a different checksum than a
little-endian host (load semantics `le64`) on the same aligned 8-byte
buffer: the claim is right about the intent (the file header even says the
code should work for all platforms) and the code is wrong. -/
theorem spec_c5 :
    swCrc32c be64 0 0 [1, 2, 3, 4, 5, 6, 7, 8]
      ≠ swCrc32c le64 0 0 [1, 2, 3, 4, 5, 6, 7, 8] := by
  decide

/-- C6: alignment invariance: shifting the buffer's base address by any
padding count p < 8 (the bytes themselves excluded from the buffer) does not
change the computed checksum; the result depends only on the byte sequence. -/
theorem spec_c6 (addr p initialCrc : Nat) (buf : List Nat) (_hp : p < 8)
    (hi : initialCrc < 2 ^ 32) (hb : ∀ b ∈ buf, b < 256) :
    swCrc32c le64 (addr + p) initialCrc buf = swCrc32c le64 addr initialCrc buf := by
  rw [swCrc32c_eq_hwCrc32c (addr + p) initialCrc buf hi hb,
    swCrc32c_eq_hwCrc32c addr initialCrc buf hi hb]

theorem spec_c6_witness :
    swCrc32c le64 (5 + 3) 0 [10, 200] = swCrc32c le64 5 0 [10, 200] :=
  spec_c6 5 3 0 [10, 200] (by norm_num) (by norm_num) (by decide)

/-- C7: row 0 of the table is produced by exactly 8 iterations of the
conditional-XOR step with polynomial 0x82F63B78 starting from the byte
value, and each further row j entry i is row 0 indexed by the low byte of
row j-1 entry i, XORed with row j-1 entry i shifted right 8 bits. -/
theorem spec_c7 (i j : Nat) (_hi : i < 256) (hj1 : 1 ≤ j) (hj7 : j ≤ 7) :
    crc32cTable 0 i = stepBit^[8] i
    ∧ crc32cTable j i
      = crc32cTable 0 (crc32cTable (j - 1) i &&& 0xff) ^^^ (crc32cTable (j - 1) i >>> 8) := by
  obtain ⟨k, rfl⟩ : ∃ k, j = k + 1 := ⟨j - 1, by omega⟩
  exact ⟨crc32cTable0_eq_iterate i, rfl⟩

theorem spec_c7_witness :
    crc32cTable 0 1 = stepBit^[8] 1
    ∧ crc32cTable 1 1
      = crc32cTable 0 (crc32cTable (1 - 1) 1 &&& 0xff) ^^^ (crc32cTable (1 - 1) 1 >>> 8) :=
  spec_c7 1 1 (by norm_num) (by norm_num) (by norm_num)

/-- C8: the dispatcher invokes exactly the engine selected by the
useHardwareCrc flag — whatever the two engines compute, the returned value
is the selected engine's value, so hardware is never silently replaced by
software (the dispatcher consults nothing but the flag). -/
theorem spec_c8 (hw sw : Nat → List Nat → Nat) (initCrc : Nat) (buf : List Nat) :
    calculateCrc hw sw true initCrc buf = hw initCrc buf
    ∧ calculateCrc hw sw false initCrc buf = sw initCrc buf :=
  ⟨rfl, rfl⟩

/-- C9: with a 32-bit initial CRC, the 64-bit accumulator is below 2^32 at
every loop-iteration boundary — each byte-loop step and each bulk-loop step
maps a sub-2^32 accumulator to a sub-2^32 accumulator, as does any run of
the byte loop — and the value at the return statement is below 2^32, so the
final uint32_t cast loses no information: the returned value equals the full
accumulator value. -/
theorem spec_c9 (addr initialCrc crc b w : Nat) (bs : List Nat)
    (hi : initialCrc < 2 ^ 32) (hbs : ∀ x ∈ bs, x < 256)
    (hcrc : crc < 2 ^ 32) (_hb : b < 256) (hw : w < 2 ^ 64) :
    swStepByte crc b < 2 ^ 32
    ∧ swBulkStep crc w < 2 ^ 32
    ∧ swBytes crc bs < 2 ^ 32
    ∧ swCrc32cAcc le64 addr initialCrc bs < 2 ^ 32
    ∧ swCrc32c le64 addr initialCrc bs = swCrc32cAcc le64 addr initialCrc bs :=
  ⟨swStepByte_lt hcrc b, swBulkStep_lt hcrc hw, swBytes_lt bs hcrc,
    (swCrc32cAcc_lt_and_eq addr initialCrc bs hi hbs).1,
    (swCrc32cAcc_lt_and_eq addr initialCrc bs hi hbs).2⟩

theorem spec_c9_witness :
    swStepByte 5 7 < 2 ^ 32
    ∧ swBulkStep 5 300 < 2 ^ 32
    ∧ swBytes 5 [1, 2] < 2 ^ 32
    ∧ swCrc32cAcc le64 1 0 [1, 2] < 2 ^ 32
    ∧ swCrc32c le64 1 0 [1, 2] = swCrc32cAcc le64 1 0 [1, 2] :=
  spec_c9 1 0 5 7 300 [1, 2] (by norm_num) (by decide) (by norm_num) (by norm_num)
    (by norm_num)

/-- C10: reading the buffer through a signed char pointer changes nothing:
the sign-extension of high-bit bytes is masked away by the `& 0xff` on the
table index, and the accumulator update is otherwise identical, so the
signed-read execution returns exactly the unsigned-read value for every
initial CRC, every address and every buffer. -/
theorem spec_c10 (addr initialCrc : Nat) (buf : List Nat) :
    swCrc32cSigned le64 addr initialCrc buf = swCrc32c le64 addr initialCrc buf := by
  cases buf with
  | nil => rfl
  | cons b rest =>
    show (swBytesSigned
        (swBulk le64 (swLeadSigned addr (initialCrc ^^^ 0xFFFFFFFF) (b :: rest)).1
          (swLeadSigned addr (initialCrc ^^^ 0xFFFFFFFF) (b :: rest)).2).1
        (swBulk le64 (swLeadSigned addr (initialCrc ^^^ 0xFFFFFFFF) (b :: rest)).1
          (swLeadSigned addr (initialCrc ^^^ 0xFFFFFFFF) (b :: rest)).2).2
      ^^^ 0xFFFFFFFF) % 2 ^ 32
      = (swBytes
        (swBulk le64 (swLead addr (initialCrc ^^^ 0xFFFFFFFF) (b :: rest)).1
          (swLead addr (initialCrc ^^^ 0xFFFFFFFF) (b :: rest)).2).1
        (swBulk le64 (swLead addr (initialCrc ^^^ 0xFFFFFFFF) (b :: rest)).1
          (swLead addr (initialCrc ^^^ 0xFFFFFFFF) (b :: rest)).2).2
      ^^^ 0xFFFFFFFF) % 2 ^ 32
    rw [swLeadSigned_eq, swBytesSigned_eq]

end Crc32c
